import Mathlib

/-!
Verification of the relic build optimizer (`src/optimizer/solver.ts` and
`src/optimizer/types.ts`) against its natural-language specification.

The TypeScript code is shallowly embedded: JS objects used as string-keyed
records become association lists (`List (String × _)`, insertion ordered,
unique keys maintained by the update operations), JS `Map` becomes the same
representation with overwrite-on-set, JS `Set<string>` becomes `List String`
with cons-insert, and the stable `Array.prototype.sort` becomes a stable
insertion sort.  Integer levels are natural numbers.  JS object identity
(used by `new Set(...)` deduplication and `Array.includes` in the candidate
reducer) is modelled by pairing each inventory item with its array index.
-/

namespace GrowthOpt

/-- Record type `RelicSkill` from `src/optimizer/types.ts`. -/
structure RelicSkill where
  name : String
  level : Nat
deriving DecidableEq, Repr

/-- Record type `Relic` from `src/optimizer/types.ts`. -/
structure Relic where
  id : Option String
  type : String
  total_level : Nat
  rarity : String
  main_skill : RelicSkill
  aux_skills : List RelicSkill
  equipped : Option String
deriving DecidableEq, Repr

/-- Record type `OptimizerConstraints` from `src/optimizer/types.ts`.
`allowedSlots` is optional there, hence `Option`. -/
structure OptimizerConstraints where
  targetCategoryLevels : List (String × Nat)
  targetSkillLevels : List (String × Nat)
  allowedSlots : Option (List (String × Nat))
deriving DecidableEq, Repr

/-- Record type `BuildResult` from `src/optimizer/types.ts`. -/
structure BuildResult where
  relics : List Relic
  rawCategoryLevels : List (String × Nat)
  rawSkillLevels : List (String × Nat)
  effectiveSkillLevels : List (String × Nat)
deriving DecidableEq, Repr

/-- Record type `SkillDefinition` from `src/optimizer/types.ts`. -/
structure SkillDefinition where
  type : String
  maxlevel : Nat
  description : Option String
deriving DecidableEq, Repr

/-- Lookup in a string-keyed record or `Map` (first matching key). -/
def mapGet? {α : Type} (m : List (String × α)) (k : String) : Option α :=
  match m with
  | [] => none
  | (k', v) :: rest => if k' = k then some v else mapGet? rest k

/-- JS `map.set(k, v)` / `obj[k] = v`: overwrite in place, else append. -/
def mapSet {α : Type} (m : List (String × α)) (k : String) (v : α) :
    List (String × α) :=
  match m with
  | [] => [(k, v)]
  | (k', v') :: rest =>
      if k' = k then (k', v) :: rest else (k', v') :: mapSet rest k v

/-- JS `(obj[k] || 0)` for numeric records. -/
def alGet (m : List (String × Nat)) (k : String) : Nat :=
  (mapGet? m k).getD 0

/-- JS `obj[k] = (obj[k] || 0) + v` on a numeric record. -/
def alBump (m : List (String × Nat)) (k : String) (v : Nat) :
    List (String × Nat) :=
  match m with
  | [] => [(k, v)]
  | (k', v') :: rest =>
      if k' = k then (k', v' + v) :: rest else (k', v') :: alBump rest k v

/-- JS truthiness of `obj[k]` for a numeric record: present and nonzero. -/
def truthyGet (m : List (String × Nat)) (k : String) : Bool :=
  decide (alGet m k ≠ 0)

/-- Stable insertion of `x` into `l`: `x` goes after every element `y`
with `le y x` (so elements inserted earlier stay first on ties). -/
def insertLe {α : Type} (le : α → α → Bool) (x : α) : List α → List α
  | [] => [x]
  | y :: ys => if le y x then y :: insertLe le x ys else x :: y :: ys

/-- Stable sort modelling JS `Array.prototype.sort` with a consistent
comparator: `le a b` means `a` may be placed before `b`. -/
def stableSortBy {α : Type} (le : α → α → Bool) (l : List α) : List α :=
  l.foldl (fun acc x => insertLe le x acc) []

/-- JS `Array.from(new Set(xs))`: keep the first occurrence of each
element, in encounter order. -/
def dedupFirst {α : Type} [DecidableEq α] (l : List α) : List α :=
  l.foldl (fun acc x => if x ∈ acc then acc else acc ++ [x]) []

/-- One `RELIC_TYPES` entry of the `relicInfo` taxonomy consumed by the
`RelicSolver` constructor. -/
structure CatData where
  main_skills : List String
  aux_skills : List (String × Nat)
deriving DecidableEq, Repr

/-- The `relicInfo` taxonomy consumed by the `RelicSolver` constructor
(`RELIC_TYPES` plus the `ELEMENTS` axis). -/
structure RelicInfo where
  RELIC_TYPES : List (String × CatData)
  ELEMENTS : List String
deriving DecidableEq, Repr

/-- JS `template.includes('\x7bElement\x7d')`. -/
def hasElementTemplate (s : String) : Bool :=
  decide ((s.splitOn "\x7bElement\x7d").length ≠ 1)

/-- JS `template.replace('\x7bElement\x7d', el)`: replace the first
occurrence only. -/
def replaceElement (s el : String) : String :=
  match s.splitOn "\x7bElement\x7d" with
  | [] => s
  | [x] => x
  | x :: rest => x ++ el ++ String.intercalate "\x7bElement\x7d" rest

/-- The taxonomy pass of the `RelicSolver` constructor: seed `categoryMap`
and `skillMaxLevels` from `relicInfo.RELIC_TYPES`, expanding element
templates against `relicInfo.ELEMENTS` (primaries default to max level 6). -/
def taxonomyIndex (relicInfo : Option RelicInfo) :
    List (String × String) × List (String × Nat) :=
  match relicInfo with
  | none => ([], [])
  | some info =>
      info.RELIC_TYPES.foldl (fun acc cd =>
        let acc1 := cd.2.main_skills.foldl
          (fun a sk => (mapSet a.1 sk cd.1, mapSet a.2 sk 6)) acc
        cd.2.aux_skills.foldl (fun a t =>
          if hasElementTemplate t.1 then
            info.ELEMENTS.foldl (fun b el =>
              let n := replaceElement t.1 el
              (mapSet b.1 n cd.1, mapSet b.2 n t.2)) a
          else (mapSet a.1 t.1 cd.1, mapSet a.2 t.1 t.2)) acc1)
        ([], [])

/-- One `skillsData` override in the `RelicSolver` constructor:
`categoryMap.set(name, def.type)` and `skillMaxLevels.set(name, def.maxlevel)`. -/
def overrideStep
    (a : List (String × String) × List (String × Nat))
    (kv : String × SkillDefinition) :
    List (String × String) × List (String × Nat) :=
  (mapSet a.1 kv.1 kv.2.type, mapSet a.2 kv.1 kv.2.maxlevel)

/-- The `RelicSolver` constructor: builds `categoryMap` (skill → category)
and `skillMaxLevels` (skill → max level) from the `relicInfo` taxonomy,
then overrides both with the explicit `skillsData` entries. -/
def buildIndex (relicInfo : Option RelicInfo)
    (skillsData : List (String × SkillDefinition)) :
    List (String × String) × List (String × Nat) :=
  skillsData.foldl overrideStep (taxonomyIndex relicInfo)

/-- The private fields of a constructed `RelicSolver` that the search
reads: the constraints and the two lookup maps. -/
structure Solver where
  constraints : OptimizerConstraints
  categoryMap : List (String × String)
  skillMaxLevels : List (String × Nat)
deriving DecidableEq, Repr

/-- `MAX_POINTS_PER_RELIC` from `solver.ts`. -/
def maxPointsPerRelic : Nat := 9

/-- The private field `maxBuilds` of `RelicSolver` (always 2000). -/
def maxBuilds : Nat := 2000

/-- The skill array `[relic.main_skill, ...relic.aux_skills]` formed in
`calculateBuildStats`, scoring, and the fingerprint. -/
def relicSkills (r : Relic) : List RelicSkill :=
  r.main_skill :: r.aux_skills

/-- One step of `calculateBuildStats`: account a single skill into the
`(rawSkillLevels, rawCategoryLevels)` pair.  The category is bumped only
when `categoryMap.get` yields a truthy (nonempty) string. -/
def statsAddSkill (S : Solver)
    (acc : List (String × Nat) × List (String × Nat)) (sk : RelicSkill) :
    List (String × Nat) × List (String × Nat) :=
  let raw := alBump acc.1 sk.name sk.level
  let cats :=
    match mapGet? S.categoryMap sk.name with
    | some c => if c = "" then acc.2 else alBump acc.2 c sk.level
    | none => acc.2
  (raw, cats)

/-- `RelicSolver.calculateBuildStats`: raw per-skill and per-category
sums over all skills of all relics of a (partial) build. -/
def calculateBuildStats (S : Solver) (build : List Relic) :
    List (String × Nat) × List (String × Nat) :=
  build.foldl (fun acc r => (relicSkills r).foldl (statsAddSkill S) acc)
    ([], [])

/-- The category-constraint rejection test of `evaluateBuild`: some
declared category minimum is unmet. -/
def catFail (S : Solver) (build : List Relic) : Bool :=
  S.constraints.targetCategoryLevels.any fun ct =>
    decide (alGet (calculateBuildStats S build).2 ct.1 < ct.2)

/-- The skill-constraint rejection test of `evaluateBuild`: some declared
specific-skill minimum is unmet. -/
def skillFail (S : Solver) (build : List Relic) : Bool :=
  S.constraints.targetSkillLevels.any fun ct =>
    decide (alGet (calculateBuildStats S build).1 ct.1 < ct.2)

/-- The string `name:level` of one skill, as interpolated in
`evaluateBuild`'s fingerprint. -/
def skillKey (sk : RelicSkill) : String :=
  sk.name ++ ":" ++ toString sk.level

/-- The per-relic fingerprint key: category, primary `name:level`, and
the lexicographically sorted secondary `name:level` list. -/
def relicFingerprint (r : Relic) : String :=
  let main := skillKey r.main_skill
  let aux := String.intercalate "-"
    (stableSortBy (fun a b => decide (a ≤ b)) (r.aux_skills.map skillKey))
  r.type ++ "-" ++ main ++ "-" ++ aux

/-- The canonical build fingerprint: the six per-relic keys, sorted and
joined with `|`. -/
def buildFingerprint (build : List Relic) : String :=
  String.intercalate "|"
    (stableSortBy (fun a b => decide (a ≤ b)) (build.map relicFingerprint))

/-- The `BuildResult` pushed by `evaluateBuild` on acceptance: the build,
its raw aggregates, and the effective (max-level-capped) skill levels. -/
def mkBuildResult (S : Solver) (build : List Relic) : BuildResult :=
  let stats := calculateBuildStats S build
  let eff := stats.1.map fun kv =>
    (kv.1, min kv.2 ((mapGet? S.skillMaxLevels kv.1).getD 6))
  ⟨build, stats.2, stats.1, eff⟩

/-- The mutable accumulator of a solve call: `validBuilds` and the
fingerprint set `buildSet`. -/
structure SolverState where
  validBuilds : List BuildResult
  buildSet : List String
deriving DecidableEq, Repr

/-- `RelicSolver.evaluateBuild`: reject on an unmet category or skill
minimum or a duplicate fingerprint, otherwise record the build and its
fingerprint. -/
def evaluateBuild (S : Solver) (build : List Relic) (st : SolverState) :
    SolverState :=
  if catFail S build then st
  else if skillFail S build then st
  else if buildFingerprint build ∈ st.buildSet then st
  else
    ⟨st.validBuilds ++ [mkBuildResult S build],
     buildFingerprint build :: st.buildSet⟩

/-- The feasibility prune of `RelicSolver.backtrack`: some declared
category minimum is unreachable even if every remaining slot contributed
`MAX_POINTS_PER_RELIC`.  The code's `depth` always equals the length of
the partial build, so `remainingSlots = 6 - cur.length`. -/
def pruneHit (S : Solver) (cur : List Relic) : Bool :=
  S.constraints.targetCategoryLevels.any fun ct =>
    decide (alGet (calculateBuildStats S cur).2 ct.1 +
      (6 - cur.length) * maxPointsPerRelic < ct.2)

/-- The per-candidate quota skip of `RelicSolver.backtrack`: with a quota
map present, skip `r` when the partial build already holds
`allowedSlots[r.type] || 0` relics of `r.type`. -/
def quotaBlocked (S : Solver) (cur : List Relic) (r : Relic) : Bool :=
  match S.constraints.allowedSlots with
  | some q =>
      decide ((mapGet? q r.type).getD 0 ≤
        (cur.filter (fun x => x.type = r.type)).length)
  | none => false

/-- `RelicSolver.backtrack`.  `rest` is the candidate suffix from the
code's `startIndex` cursor; the `for` loop is expressed as tail recursion
on `rest`, threading the mutated state through (`continue` leaves the
state unchanged).  The cap, depth and prune guards are re-evaluated on
each loop step; the depth and prune guards only read `cur`, which the
loop never changes, and once the cap guard trips every remaining
recursive call returns its state unchanged, so this matches the source's
check-once-then-loop shape. -/
def backtrack (S : Solver) : List Relic → List Relic → SolverState →
    SolverState
  | rest, cur, st =>
    if maxBuilds ≤ st.validBuilds.length then st
    else if cur.length = 6 then evaluateBuild S cur st
    else if pruneHit S cur then st
    else
      match rest with
      | [] => st
      | r :: rs =>
          backtrack S rs cur
            (if quotaBlocked S cur r then st
             else backtrack S rs (cur ++ [r]) st)

/-- Modelled from the spec (§4.3, claim C7): the same backtracking search
with the feasibility prune removed — the reference point of the
prune-soundness refinement claim. -/
def backtrackNoPrune (S : Solver) : List Relic → List Relic →
    SolverState → SolverState
  | rest, cur, st =>
    if maxBuilds ≤ st.validBuilds.length then st
    else if cur.length = 6 then evaluateBuild S cur st
    else
      match rest with
      | [] => st
      | r :: rs =>
          backtrackNoPrune S rs cur
            (if quotaBlocked S cur r then st
             else backtrackNoPrune S rs (cur ++ [r]) st)

/-- The relic-usefulness score of the candidate reducer in
`RelicSolver.solve`: per skill, `level*2` when the skill's category has a
truthy declared minimum, plus `level*10` when the skill name itself has a
truthy declared minimum. -/
def scoreRelic (cfg : OptimizerConstraints)
    (catMap : List (String × String)) (r : Relic) : Nat :=
  (relicSkills r).foldl (fun score sk =>
    let score1 :=
      match mapGet? catMap sk.name with
      | some c =>
          if c ≠ "" ∧ truthyGet cfg.targetCategoryLevels c then
            score + sk.level * 2
          else score
      | none => score
    if truthyGet cfg.targetSkillLevels sk.name then score1 + sk.level * 10
    else score1) 0

/-- The `scoredRelics` array of `RelicSolver.solve`.  Each relic is
paired with its array index to model JS object identity (the `new Set`
dedup and `includes` compare object references; every array position
holds a distinct object). -/
def scoredList (cfg : OptimizerConstraints)
    (catMap : List (String × String)) (relics : List Relic) :
    List ((Nat × Relic) × Nat) :=
  relics.enum.map fun ir => (ir, scoreRelic cfg catMap ir.2)

/-- The `requiredCategories` of `RelicSolver.solve`: the quota map's keys
when supplied, else the four fixed category names. -/
def requiredCats (cfg : OptimizerConstraints) : List String :=
  match cfg.allowedSlots with
  | some q => q.map Prod.fst
  | none => ["Bulwark", "Vanguard", "Support", "Sentinel"]

/-- One category's slice of `topDiverseRelics`: the category's group
(`groupedByCat[cat] || []`), sorted descending by score, first 15, with
the score dropped by the `push(c.relic)`. -/
def topFor (cfg : OptimizerConstraints) (catMap : List (String × String))
    (relics : List Relic) (cat : String) : List (Nat × Relic) :=
  ((stableSortBy (fun a b => decide (b.2 ≤ a.2))
    ((scoredList cfg catMap relics).filter fun s => s.1.2.type = cat)).take
      15).map Prod.fst

/-- The candidate reducer of `RelicSolver.solve`: per quota-referenced
category (or the four default categories), keep the top 15 by score;
identity-dedup the union; below 50 relics, pad with the best-scoring
remainder overall. -/
def reduceCandidates (cfg : OptimizerConstraints)
    (catMap : List (String × String)) (relics : List Relic) : List Relic :=
  let scored := scoredList cfg catMap relics
  let topDiverse : List (Nat × Relic) :=
    (requiredCats cfg).foldl
      (fun acc cat => acc ++ topFor cfg catMap relics cat) []
  let uniqueTop := dedupFirst topDiverse
  let finalTop :=
    if uniqueTop.length < 50 then
      uniqueTop ++
        ((stableSortBy (fun a b => decide (b.2 ≤ a.2))
          (scored.filter fun s => ¬ uniqueTop.contains s.1)).take
            (50 - uniqueTop.length)).map Prod.fst
    else uniqueTop
  finalTop.map Prod.snd

/-- Total raw skill-level sum of a result, as in the final sort
(`Object.values(rawSkillLevels)` reduced by addition). -/
def totalRaw (b : BuildResult) : Nat :=
  (b.rawSkillLevels.map Prod.snd).foldl (fun acc v => acc + v) 0

/-- Total effective skill-level sum of a result (the sort tie-break). -/
def totalEff (b : BuildResult) : Nat :=
  (b.effectiveSkillLevels.map Prod.snd).foldl (fun acc v => acc + v) 0

/-- The final sort comparator of `RelicSolver.solve` as a may-precede
relation: `a` may precede `b` iff the comparator is ≤ 0, i.e. descending
raw sum, ties broken by descending effective sum. -/
def buildLe (a b : BuildResult) : Bool :=
  decide (totalRaw b < totalRaw a) ||
    (decide (totalRaw a = totalRaw b) && decide (totalEff b ≤ totalEff a))

/-- `RelicSolver.solve` for a constructed solver: reduce candidates, run
the search from an empty build and fresh accumulators, then stable-sort
the accepted builds with the ranking comparator. -/
def solveWith (S : Solver) (relics : List Relic) : List BuildResult :=
  let candidates := reduceCandidates S.constraints S.categoryMap relics
  let final := backtrack S candidates [] ⟨[], []⟩
  stableSortBy buildLe final.validBuilds

/-- `new RelicSolver(relics, constraints, skillsData, relicInfo).solve()`:
the constructor's index building followed by `solve`. -/
def relicSolve (relics : List Relic) (cfg : OptimizerConstraints)
    (skillsData : List (String × SkillDefinition))
    (relicInfo : Option RelicInfo) : List BuildResult :=
  let idx := buildIndex relicInfo skillsData
  solveWith ⟨cfg, idx.1, idx.2⟩ relics

/-- The quota invariant the search maintains on partial builds: with a
quota map in force, no category's item count exceeds
`allowedSlots[category] || 0`. -/
def QuotaOk (S : Solver) (build : List Relic) : Prop :=
  ∀ q, S.constraints.allowedSlots = some q →
    ∀ t, (build.filter (fun x => x.type = t)).length ≤ (mapGet? q t).getD 0

/-- Well-formed inventory item per the spec's data model: every modifier
level at most 3, at most two secondary modifiers. -/
def RelicWf (r : Relic) : Prop :=
  (∀ sk ∈ relicSkills r, sk.level ≤ 3) ∧ r.aux_skills.length ≤ 2

/-- What one skill contributes to category `c` in
`calculateBuildStats`: its level when the category map sends its name to
`c` (and `c` is truthy), else nothing. -/
def skillCatContrib (S : Solver) (c : String) (sk : RelicSkill) : Nat :=
  match mapGet? S.categoryMap sk.name with
  | some cat => if cat = "" then 0 else if cat = c then sk.level else 0
  | none => 0

/-- What one relic contributes to category `c` in `calculateBuildStats`. -/
def relicCatContrib (S : Solver) (c : String) (r : Relic) : Nat :=
  ((relicSkills r).map (skillCatContrib S c)).sum

/-- The dedup invariant of the accumulator: every accepted build's
fingerprint is registered in `buildSet`, and accepted fingerprints are
pairwise distinct. -/
def fpInv (st : SolverState) : Prop :=
  (∀ b ∈ st.validBuilds, buildFingerprint b.relics ∈ st.buildSet) ∧
  List.Pairwise
    (fun a b => buildFingerprint a.relics ≠ buildFingerprint b.relics)
    st.validBuilds

/-- Fixture: a category-`A` relic with one level-3 skill `s`. -/
def rA : Relic := ⟨none, "A", 3, "", ⟨"s", 3⟩, [], none⟩

/-- Fixture: a category-`B` relic with one level-2 skill `t`. -/
def rB : Relic := ⟨none, "B", 2, "", ⟨"t", 2⟩, [], none⟩

/-- Fixture: six copies of `rA`. -/
def invA : List Relic := [rA, rA, rA, rA, rA, rA]

/-- Fixture: skill override table sending `s` to category `A`, max 6. -/
def sdA : List (String × SkillDefinition) := [("s", ⟨"A", 6, none⟩)]

/-- Fixture constraints: category `A` ≥ 10, skill `s` ≥ 5, no quotas. -/
def cfgA : OptimizerConstraints := ⟨[("A", 10)], [("s", 5)], none⟩

/-- Fixture: the build result the solver produces from `invA`. -/
def resA : BuildResult := ⟨invA, [("A", 18)], [("s", 18)], [("s", 6)]⟩

/-- Fixture constraints: no minimums, quota map `A ↦ 6`. -/
def cfgQ : OptimizerConstraints := ⟨[], [], some [("A", 6)]⟩

/-- Fixture inventory: six `A` relics and three `B` relics. -/
def invQ : List Relic := invA ++ [rB, rB, rB]

/-- Fixture: a solver with no constraints and empty lookup maps. -/
def emptySolver : Solver := ⟨⟨[], [], none⟩, [], []⟩

/-- Fixture: an empty build result. -/
def emptyResult : BuildResult := ⟨[], [], [], []⟩

/-- Fixture: an accumulator already holding 2000 accepted builds. -/
def cappedState : SolverState := ⟨List.replicate 2000 emptyResult, []⟩

/-- Fixture (claim C7): a relic whose five skills all have level 3 but
which carries four secondary modifiers, so it can contribute 15 to one
category. -/
def r7 : Relic :=
  ⟨none, "X", 15, "", ⟨"A", 3⟩, [⟨"B", 3⟩, ⟨"C", 3⟩, ⟨"D", 3⟩, ⟨"E", 3⟩],
   none⟩

/-- Fixture (claim C7): a solver demanding category `X` ≥ 55 with all of
`r7`'s skills mapped to `X`. -/
def S7 : Solver :=
  ⟨⟨[("X", 55)], [], none⟩,
   [("A", "X"), ("B", "X"), ("C", "X"), ("D", "X"), ("E", "X")], []⟩

/-- Fixture (claim C7): six copies of `r7`. -/
def cands7 : List Relic := [r7, r7, r7, r7, r7, r7]

/-- Fixture (claim C7 witness): a solver over `cfgA` with `s → A`. -/
def SA : Solver := ⟨cfgA, [("s", "A")], [("s", 6)]⟩

/-- Fixture (claim C8 witness): a category minimum of 55 > 54. -/
def cfgX : OptimizerConstraints := ⟨[("X", 55)], [], none⟩

/-- Fixture (claim C9): a single-skill relic of category `t`. -/
def mkRelic9 (t : String) : Relic := ⟨none, t, 1, "", ⟨"s", 1⟩, [], none⟩

/-- Fixture (claim C9): 16 `A` relics and 15 each of `B`, `C`, `D`. -/
def relics9 : List Relic :=
  List.replicate 16 (mkRelic9 "A") ++ List.replicate 15 (mkRelic9 "B") ++
  List.replicate 15 (mkRelic9 "C") ++ List.replicate 15 (mkRelic9 "D")

/-- Fixture (claim C9): quotas `A ↦ 16, B ↦ 1, C ↦ 1, D ↦ 1`, no
minimums. -/
def cfg9 : OptimizerConstraints :=
  ⟨[], [], some [("A", 16), ("B", 1), ("C", 1), ("D", 1)]⟩

/-! Basic lemmas about the record operations. -/

theorem mapGet?_mapSet_self {α : Type} (m : List (String × α)) (k : String)
    (v : α) : mapGet? (mapSet m k v) k = some v := by
  induction m with
  | nil => simp [mapSet, mapGet?]
  | cons kv t ih =>
      obtain ⟨k', v'⟩ := kv
      by_cases hk : k' = k
      · simp [mapSet, mapGet?, hk]
      · simp [mapSet, mapGet?, hk, ih]

theorem mapGet?_mapSet_ne {α : Type} (m : List (String × α))
    {k k' : String} (v : α) (h : k ≠ k') :
    mapGet? (mapSet m k v) k' = mapGet? m k' := by
  induction m with
  | nil => simp [mapSet, mapGet?, h]
  | cons kv t ih =>
      obtain ⟨k0, v0⟩ := kv
      by_cases hk : k0 = k
      · subst hk; simp [mapSet, mapGet?, h, ih]
      · by_cases hk' : k0 = k'
        · simp [mapSet, mapGet?, hk, hk', Ne.symm h]
        · simp [mapSet, mapGet?, hk, hk', ih]

theorem alGet_nil (k : String) : alGet [] k = 0 := rfl

theorem alGet_alBump (m : List (String × Nat)) (k k' : String) (v : Nat) :
    alGet (alBump m k v) k' = alGet m k' + if k = k' then v else 0 := by
  induction m with
  | nil =>
      by_cases h : k = k' <;> simp [alBump, alGet, mapGet?, h]
  | cons kv t ih =>
      obtain ⟨k0, v0⟩ := kv
      by_cases hk : k0 = k
      · subst hk
        by_cases h : k0 = k'
        · subst h; simp [alBump, alGet, mapGet?, Nat.add_comm]
        · simp [alBump, alGet, mapGet?, h]
      · by_cases h : k0 = k'
        · subst h; simp [alBump, alGet, mapGet?, hk, Ne.symm hk]
        · simpa [alBump, alGet, mapGet?, hk, h] using ih

/-! The stable insertion sort: permutation and sortedness. -/

theorem insertLe_perm {α : Type} (le : α → α → Bool) (x : α) (l : List α) :
    (insertLe le x l).Perm (x :: l) := by
  induction l with
  | nil => simp [insertLe]
  | cons y ys ih =>
      by_cases h : le y x
      · simpa [insertLe, h] using (ih.cons y).trans (List.Perm.swap x y ys)
      · simp [insertLe, h]

theorem foldl_insertLe_perm {α : Type} (le : α → α → Bool) :
    ∀ (l acc : List α),
      (l.foldl (fun acc x => insertLe le x acc) acc).Perm (acc ++ l)
  | [], acc => by simp
  | x :: xs, acc => by
      have h1 := foldl_insertLe_perm le xs (insertLe le x acc)
      have h2 : (insertLe le x acc ++ xs).Perm (acc ++ x :: xs) :=
        ((insertLe_perm le x acc).append_right xs).trans
          List.perm_middle.symm
      exact h1.trans h2

theorem stableSortBy_perm {α : Type} (le : α → α → Bool) (l : List α) :
    (stableSortBy le l).Perm l := by
  simpa [stableSortBy] using foldl_insertLe_perm le l []

theorem mem_stableSortBy {α : Type} {le : α → α → Bool} {l : List α}
    {x : α} : x ∈ stableSortBy le l ↔ x ∈ l :=
  (stableSortBy_perm le l).mem_iff

theorem pairwise_insertLe {α : Type} {le : α → α → Bool}
    (htr : ∀ a b c, le a b = true → le b c = true → le a c = true)
    (hto : ∀ a b, le a b = true ∨ le b a = true)
    (x : α) {l : List α} (hl : l.Pairwise fun a b => le a b = true) :
    (insertLe le x l).Pairwise fun a b => le a b = true := by
  induction l with
  | nil => simp [insertLe]
  | cons y ys ih =>
      rcases List.pairwise_cons.mp hl with ⟨hy, hys⟩
      by_cases h : le y x
      · rw [insertLe, if_pos h]
        refine List.pairwise_cons.mpr ⟨?_, ih hys⟩
        intro b hb
        rcases List.mem_cons.mp ((insertLe_perm le x ys).mem_iff.mp hb)
          with rfl | hb'
        · exact h
        · exact hy b hb'
      · rw [insertLe, if_neg h]
        have hxy : le x y = true := by
          rcases hto x y with h' | h'
          · exact h'
          · exact absurd h' h
        refine List.pairwise_cons.mpr ⟨?_, hl⟩
        intro b hb
        rcases List.mem_cons.mp hb with rfl | hb'
        · exact hxy
        · exact htr x y b hxy (hy b hb')

theorem pairwise_stableSortBy {α : Type} {le : α → α → Bool}
    (htr : ∀ a b c, le a b = true → le b c = true → le a c = true)
    (hto : ∀ a b, le a b = true ∨ le b a = true) (l : List α) :
    (stableSortBy le l).Pairwise fun a b => le a b = true := by
  suffices h : ∀ (l acc : List α),
      (acc.Pairwise fun a b => le a b = true) →
      ((l.foldl (fun acc x => insertLe le x acc) acc).Pairwise
        fun a b => le a b = true) by
    exact h l [] (by simp)
  intro l
  induction l with
  | nil => intro acc hacc; simpa using hacc
  | cons x xs ih =>
      intro acc hacc
      exact ih (insertLe le x acc) (pairwise_insertLe htr hto x hacc)

/-! The first-occurrence deduplication. -/

theorem mem_dedupFirst_foldl {α : Type} [DecidableEq α] :
    ∀ (l acc : List α) (x : α),
      (x ∈ l.foldl (fun acc y => if y ∈ acc then acc else acc ++ [y]) acc)
        ↔ x ∈ acc ∨ x ∈ l
  | [], acc, x => by simp
  | y :: ys, acc, x => by
      by_cases h : y ∈ acc
      · rw [List.foldl_cons, if_pos h, mem_dedupFirst_foldl ys acc x]
        constructor
        · rintro (hx | hx)
          · exact Or.inl hx
          · exact Or.inr (List.mem_cons_of_mem y hx)
        · rintro (hx | hx)
          · exact Or.inl hx
          · rcases List.mem_cons.mp hx with rfl | hx'
            · exact Or.inl h
            · exact Or.inr hx'
      · rw [List.foldl_cons, if_neg h,
          mem_dedupFirst_foldl ys (acc ++ [y]) x]
        simp only [List.mem_append, List.mem_singleton, List.mem_cons]
        tauto

theorem mem_dedupFirst {α : Type} [DecidableEq α] {l : List α} {x : α} :
    x ∈ dedupFirst l ↔ x ∈ l := by
  rw [dedupFirst, mem_dedupFirst_foldl]
  simp

theorem nodup_dedupFirst_foldl {α : Type} [DecidableEq α] :
    ∀ (l acc : List α), acc.Nodup →
      (l.foldl (fun acc y => if y ∈ acc then acc else acc ++ [y])
        acc).Nodup
  | [], acc, h => by simpa using h
  | y :: ys, acc, h => by
      by_cases hy : y ∈ acc
      · rw [List.foldl_cons, if_pos hy]
        exact nodup_dedupFirst_foldl ys acc h
      · rw [List.foldl_cons, if_neg hy]
        refine nodup_dedupFirst_foldl ys (acc ++ [y]) ?_
        simpa [List.nodup_append] using ⟨h, hy⟩

theorem nodup_dedupFirst {α : Type} [DecidableEq α] (l : List α) :
    (dedupFirst l).Nodup :=
  nodup_dedupFirst_foldl l [] List.nodup_nil

/-! Growth of the fold that concatenates per-category candidate slices. -/

theorem subset_foldl_append {α β : Type} (f : β → List α) :
    ∀ (cats : List β) (acc : List α),
      acc ⊆ cats.foldl (fun a c => a ++ f c) acc
  | [], _ => by simp
  | c :: cs, acc => by
      rw [List.foldl_cons]
      exact fun x hx =>
        subset_foldl_append f cs (acc ++ f c)
          (List.mem_append_left _ hx)

theorem slice_subset_foldl_append {α β : Type} (f : β → List α) :
    ∀ (cats : List β) (acc : List α) (c : β), c ∈ cats →
      f c ⊆ cats.foldl (fun a c => a ++ f c) acc
  | [], _, _, h => absurd h (List.not_mem_nil _)
  | c0 :: cs, acc, c, h => by
      rw [List.foldl_cons]
      rcases List.mem_cons.mp h with rfl | h'
      · exact fun x hx =>
          subset_foldl_append f cs (acc ++ f c)
            (List.mem_append_right _ hx)
      · exact slice_subset_foldl_append f cs (acc ++ f c0) c h'

/-! Lemmas about the backtracking search. -/

theorem backtrack_unfold (S : Solver) (rest cur : List Relic)
    (st : SolverState) :
    backtrack S rest cur st =
      if maxBuilds ≤ st.validBuilds.length then st
      else if cur.length = 6 then evaluateBuild S cur st
      else if pruneHit S cur then st
      else
        match rest with
        | [] => st
        | r :: rs =>
            backtrack S rs cur
              (if quotaBlocked S cur r then st
               else backtrack S rs (cur ++ [r]) st) := by
  rw [backtrack.eq_def]

theorem backtrackNoPrune_unfold (S : Solver) (rest cur : List Relic)
    (st : SolverState) :
    backtrackNoPrune S rest cur st =
      if maxBuilds ≤ st.validBuilds.length then st
      else if cur.length = 6 then evaluateBuild S cur st
      else
        match rest with
        | [] => st
        | r :: rs =>
            backtrackNoPrune S rs cur
              (if quotaBlocked S cur r then st
               else backtrackNoPrune S rs (cur ++ [r]) st) := by
  rw [backtrackNoPrune.eq_def]

theorem mem_evaluateBuild {S : Solver} {build : List Relic}
    {st : SolverState} {b : BuildResult}
    (hb : b ∈ (evaluateBuild S build st).validBuilds) :
    b ∈ st.validBuilds ∨
      (b = mkBuildResult S build ∧ catFail S build = false ∧
        skillFail S build = false) := by
  unfold evaluateBuild at hb
  split_ifs at hb with h1 h2 h3
  · exact Or.inl hb
  · exact Or.inl hb
  · exact Or.inl hb
  · rcases List.mem_append.mp hb with h | h
    · exact Or.inl h
    · exact Or.inr ⟨List.mem_singleton.mp h, by simpa using h1,
        by simpa using h2⟩

theorem quotaOk_nil (S : Solver) : QuotaOk S [] := by
  intro q _ t; simp

theorem quotaOk_push {S : Solver} {cur : List Relic} {r : Relic}
    (hq : QuotaOk S cur) (hb : quotaBlocked S cur r = false) :
    QuotaOk S (cur ++ [r]) := by
  intro q hsome t
  have hlt : (cur.filter fun x => x.type = r.type).length <
      (mapGet? q r.type).getD 0 := by
    unfold quotaBlocked at hb
    rw [hsome] at hb
    simpa using hb
  rw [List.filter_append]
  by_cases ht : r.type = t
  · subst ht
    have h1 : (List.filter (fun x => decide (x.type = r.type)) [r]).length
        = 1 := by simp
    rw [List.length_append, h1]
    omega
  · have : List.filter (fun x => decide (x.type = t)) [r] = [] := by
      simp [ht]
    rw [this, List.append_nil]
    exact hq q hsome t

theorem mem_backtrack {S : Solver} :
    ∀ (rest : List Relic), ∀ (cur : List Relic) (st : SolverState)
      (b : BuildResult), QuotaOk S cur →
      b ∈ (backtrack S rest cur st).validBuilds →
      b ∈ st.validBuilds ∨
        ∃ build, build.length = 6 ∧ QuotaOk S build ∧
          catFail S build = false ∧ skillFail S build = false ∧
          b = mkBuildResult S build := by
  intro rest
  induction rest with
  | nil =>
      intro cur st b hq hb
      rw [backtrack_unfold] at hb
      split_ifs at hb with h1 h2 h3
      · exact Or.inl hb
      · rcases mem_evaluateBuild hb with h | ⟨hmk, hcf, hsf⟩
        · exact Or.inl h
        · exact Or.inr ⟨cur, h2, hq, hcf, hsf, hmk⟩
      · exact Or.inl hb
      · exact Or.inl hb
  | cons r rs ih =>
      intro cur st b hq hb
      rw [backtrack_unfold] at hb
      split_ifs at hb with h1 h2 h3
      · exact Or.inl hb
      · rcases mem_evaluateBuild hb with h | ⟨hmk, hcf, hsf⟩
        · exact Or.inl h
        · exact Or.inr ⟨cur, h2, hq, hcf, hsf, hmk⟩
      · exact Or.inl hb
      · rcases ih cur _ b hq hb with h | h
        · by_cases hqb : quotaBlocked S cur r
          · rw [if_pos hqb] at h
            exact Or.inl h
          · rw [if_neg hqb] at h
            have hq' : QuotaOk S (cur ++ [r]) :=
              quotaOk_push hq (by simpa using hqb)
            exact ih (cur ++ [r]) st b hq' h
        · exact Or.inr h

theorem fpInv_evaluateBuild {S : Solver} {build : List Relic}
    {st : SolverState} (h : fpInv st) : fpInv (evaluateBuild S build st) := by
  unfold evaluateBuild
  split_ifs with h1 h2 h3
  · exact h
  · exact h
  · exact h
  · obtain ⟨hmem, hpw⟩ := h
    constructor
    · intro b hb
      rcases List.mem_append.mp hb with hb' | hb'
      · exact List.mem_cons_of_mem _ (hmem b hb')
      · rw [List.mem_singleton.mp hb']
        exact List.mem_cons_self _ _
    · rw [List.pairwise_append]
      refine ⟨hpw, List.pairwise_singleton _ _, ?_⟩
      intro a ha b hb
      rw [List.mem_singleton.mp hb]
      intro hcontra
      exact h3 (hcontra ▸ hmem a ha)

theorem fpInv_backtrack {S : Solver} :
    ∀ (rest cur : List Relic) (st : SolverState), fpInv st →
      fpInv (backtrack S rest cur st) := by
  intro rest
  induction rest with
  | nil =>
      intro cur st h
      rw [backtrack_unfold]
      split_ifs with h1 h2 h3
      · exact h
      · exact fpInv_evaluateBuild h
      · exact h
      · exact h
  | cons r rs ih =>
      intro cur st h
      rw [backtrack_unfold]
      split_ifs with h1 h2 h3
      · exact h
      · exact fpInv_evaluateBuild h
      · exact h
      · refine ih cur _ ?_
        by_cases hqb : quotaBlocked S cur r
        · rw [if_pos hqb]; exact h
        · rw [if_neg hqb]; exact ih (cur ++ [r]) st h

theorem length_evaluateBuild (S : Solver) (build : List Relic)
    (st : SolverState) :
    (evaluateBuild S build st).validBuilds.length ≤
      st.validBuilds.length + 1 := by
  unfold evaluateBuild
  split_ifs <;> simp

theorem backtrack_le_maxBuilds {S : Solver} :
    ∀ (rest cur : List Relic) (st : SolverState),
      st.validBuilds.length ≤ maxBuilds →
      (backtrack S rest cur st).validBuilds.length ≤ maxBuilds := by
  intro rest
  induction rest with
  | nil =>
      intro cur st h
      rw [backtrack_unfold]
      split_ifs with h1 h2 h3
      · exact h
      · have := length_evaluateBuild S cur st
        omega
      · exact h
      · exact h
  | cons r rs ih =>
      intro cur st h
      rw [backtrack_unfold]
      split_ifs with h1 h2 h3
      · exact h
      · have := length_evaluateBuild S cur st
        omega
      · exact h
      · refine ih cur _ ?_
        by_cases hqb : quotaBlocked S cur r
        · rw [if_pos hqb]; exact h
        · rw [if_neg hqb]; exact ih (cur ++ [r]) st h

theorem backtrack_stuck {S : Solver} {rest cur : List Relic}
    {st : SolverState} (h : maxBuilds ≤ st.validBuilds.length) :
    backtrack S rest cur st = st := by
  rw [backtrack_unfold, if_pos h]

theorem mem_relicSolve {relics : List Relic} {cfg : OptimizerConstraints}
    {sd : List (String × SkillDefinition)} {ri : Option RelicInfo}
    {B : BuildResult} (hB : B ∈ relicSolve relics cfg sd ri) :
    ∃ build, build.length = 6 ∧
      QuotaOk ⟨cfg, (buildIndex ri sd).1, (buildIndex ri sd).2⟩ build ∧
      catFail ⟨cfg, (buildIndex ri sd).1, (buildIndex ri sd).2⟩ build
        = false ∧
      skillFail ⟨cfg, (buildIndex ri sd).1, (buildIndex ri sd).2⟩ build
        = false ∧
      B = mkBuildResult ⟨cfg, (buildIndex ri sd).1, (buildIndex ri sd).2⟩
        build := by
  simp only [relicSolve, solveWith] at hB
  have hB' := mem_stableSortBy.mp hB
  rcases mem_backtrack _ [] _ B (quotaOk_nil _) hB' with h | h
  · simp at h
  · exact h

theorem mapGet?_of_nodup {α : Type} {q : List (String × α)}
    (hnd : (q.map Prod.fst).Nodup) {c : String} {v : α}
    (h : (c, v) ∈ q) : mapGet? q c = some v := by
  induction q with
  | nil => simp at h
  | cons kv t ih =>
      obtain ⟨k0, v0⟩ := kv
      rcases List.mem_cons.mp h with heq | h'
      · obtain ⟨rfl, rfl⟩ := Prod.mk.injEq .. ▸ heq
        simp [mapGet?]
      · have hnd1 : (k0 :: t.map Prod.fst).Nodup := by simpa using hnd
        rcases List.nodup_cons.mp hnd1 with ⟨hk0, hnd'⟩
        have hne : k0 ≠ c := by
          intro hk
          subst hk
          exact hk0 (List.mem_map.mpr ⟨(k0, v), h', rfl⟩)
        simp only [mapGet?, hne, if_false]
        exact ih hnd' h'

theorem catFail_false_iff {S : Solver} {build : List Relic} :
    catFail S build = false ↔
      ∀ ct ∈ S.constraints.targetCategoryLevels,
        ct.2 ≤ alGet (calculateBuildStats S build).2 ct.1 := by
  unfold catFail
  rw [← Bool.not_eq_true, List.any_eq_true]
  push_neg
  constructor
  · intro h ct hct
    have := h ct hct
    simpa [Nat.not_lt] using this
  · intro h ct hct
    simpa [Nat.not_lt] using h ct hct

theorem skillFail_false_iff {S : Solver} {build : List Relic} :
    skillFail S build = false ↔
      ∀ ct ∈ S.constraints.targetSkillLevels,
        ct.2 ≤ alGet (calculateBuildStats S build).1 ct.1 := by
  unfold skillFail
  rw [← Bool.not_eq_true, List.any_eq_true]
  push_neg
  constructor
  · intro h ct hct
    simpa [Nat.not_lt] using h ct hct
  · intro h ct hct
    simpa [Nat.not_lt] using h ct hct

/-- Claim C1: every build accepted by `solve` satisfies every declared
category minimum and every declared skill minimum — for every category
`c` with declared minimum `m`, `B.rawCategoryLevels[c] ≥ m`, and for
every skill `s` with declared minimum `m`, `B.rawSkillLevels[s] ≥ m`,
where an absent key reads as 0. -/
theorem claim_C1 (relics : List Relic) (cfg : OptimizerConstraints)
    (sd : List (String × SkillDefinition)) (ri : Option RelicInfo)
    (B : BuildResult) (hB : B ∈ relicSolve relics cfg sd ri) :
    (∀ cm ∈ cfg.targetCategoryLevels,
      cm.2 ≤ alGet B.rawCategoryLevels cm.1) ∧
    (∀ sm ∈ cfg.targetSkillLevels,
      sm.2 ≤ alGet B.rawSkillLevels sm.1) := by
  obtain ⟨build, hlen, hq, hcf, hsf, hmk⟩ := mem_relicSolve hB
  subst hmk
  exact ⟨fun cm hcm => catFail_false_iff.mp hcf cm hcm,
    fun sm hsm => skillFail_false_iff.mp hsf sm hsm⟩

theorem claim_C1_witness :
    10 ≤ alGet resA.rawCategoryLevels "A" ∧
    5 ≤ alGet resA.rawSkillLevels "s" := by
  have h := claim_C1 invA cfgA sdA none resA (by decide)
  exact ⟨h.1 ("A", 10) (by decide), h.2 ("s", 5) (by decide)⟩

/-- Claim C3: every accepted build has exactly 6 items, and with a quota
map supplied, no category's item count exceeds its declared quota. -/
theorem claim_C3 (relics : List Relic) (cfg : OptimizerConstraints)
    (sd : List (String × SkillDefinition)) (ri : Option RelicInfo)
    (B : BuildResult) (hB : B ∈ relicSolve relics cfg sd ri) :
    B.relics.length = 6 ∧
    ∀ q, cfg.allowedSlots = some q → (q.map Prod.fst).Nodup →
      ∀ c qv, (c, qv) ∈ q →
        (B.relics.filter fun r => r.type = c).length ≤ qv := by
  obtain ⟨build, hlen, hq, _, _, hmk⟩ := mem_relicSolve hB
  subst hmk
  refine ⟨hlen, ?_⟩
  intro q hsome hnd c qv hcq
  have h := hq q hsome c
  rw [mapGet?_of_nodup hnd hcq] at h
  simpa using h

set_option maxHeartbeats 1000000 in
set_option maxRecDepth 10000 in
theorem claim_C3_witness :
    resA.relics.length = 6 ∧
    (resA.relics.filter fun r => r.type = "A").length ≤ 6 := by
  have h := claim_C3 invA cfgQ sdA none resA (by decide)
  exact ⟨h.1, h.2 [("A", 6)] rfl (by decide) "A" 6 (by decide)⟩

/-- Claim C10: with a quota map supplied, an item whose category is
absent from the map (or mapped to 0) never appears in any accepted
build. -/
theorem claim_C10 (relics : List Relic) (cfg : OptimizerConstraints)
    (sd : List (String × SkillDefinition)) (ri : Option RelicInfo)
    (B : BuildResult) (hB : B ∈ relicSolve relics cfg sd ri)
    (q : List (String × Nat)) (c : String)
    (hq : cfg.allowedSlots = some q)
    (hc : mapGet? q c = none ∨ mapGet? q c = some 0) :
    ∀ r ∈ B.relics, r.type ≠ c := by
  obtain ⟨build, _, hqok, _, _, hmk⟩ := mem_relicSolve hB
  subst hmk
  have h := hqok q hq c
  have h0 : (build.filter fun x => x.type = c).length = 0 := by
    rcases hc with hc | hc <;> rw [hc] at h <;> simpa using h
  have hnil := List.length_eq_zero.mp h0
  intro r hr hrc
  have hmem : r ∈ build.filter fun x => x.type = c :=
    List.mem_filter.mpr ⟨hr, by simp [hrc]⟩
  rw [hnil] at hmem
  exact List.not_mem_nil r hmem

set_option maxHeartbeats 1000000 in
set_option maxRecDepth 10000 in
theorem claim_C10_witness : rA.type ≠ "B" :=
  claim_C10 invQ cfgQ sdA none resA (by decide) [("A", 6)] "B" rfl
    (Or.inl rfl) rA (by decide)

/-- Claim C4: the output of `solve` never holds more than 2000 builds,
and a search state that has already reached the cap is a fixed point of
`backtrack` — the whole search stops accepting immediately, not just the
current branch. -/
theorem claim_C4 :
    (∀ (relics : List Relic) (cfg : OptimizerConstraints)
        (sd : List (String × SkillDefinition)) (ri : Option RelicInfo),
      (relicSolve relics cfg sd ri).length ≤ 2000) ∧
    (∀ (S : Solver) (rest cur : List Relic) (st : SolverState),
      maxBuilds ≤ st.validBuilds.length → backtrack S rest cur st = st) := by
  constructor
  · intro relics cfg sd ri
    simp only [relicSolve, solveWith]
    rw [(stableSortBy_perm _ _).length_eq]
    exact backtrack_le_maxBuilds _ [] _ (by simp [maxBuilds])
  · intro S rest cur st h
    exact backtrack_stuck h

theorem claim_C4_witness :
    backtrack emptySolver [] [] cappedState = cappedState :=
  claim_C4.2 emptySolver [] [] cappedState
    (by rw [show cappedState.validBuilds = List.replicate 2000 emptyResult
          from rfl, List.length_replicate]
        exact Nat.le.refl)

/-- Claim C5: no two builds in one solve call's output share a canonical
fingerprint (category plus primary `name:level` plus sorted secondary
`name:level` list per item, the six keys sorted and concatenated). -/
theorem claim_C5 (relics : List Relic) (cfg : OptimizerConstraints)
    (sd : List (String × SkillDefinition)) (ri : Option RelicInfo) :
    List.Pairwise
      (fun a b => buildFingerprint a.relics ≠ buildFingerprint b.relics)
      (relicSolve relics cfg sd ri) := by
  simp only [relicSolve, solveWith]
  have hinv :=
    fpInv_backtrack
      (S := ⟨cfg, (buildIndex ri sd).1, (buildIndex ri sd).2⟩)
      (reduceCandidates cfg (buildIndex ri sd).1 relics) [] ⟨[], []⟩
      ⟨fun b hb => absurd hb (List.not_mem_nil b), List.Pairwise.nil⟩
  exact ((stableSortBy_perm _ _).pairwise_iff
    fun h => Ne.symm h).mpr hinv.2

/-! Lemmas for the effective-level computation and the index overrides. -/

theorem alGet_map_min (raw : List (String × Nat)) (g : String → Nat)
    (s : String) :
    alGet (raw.map fun kv => (kv.1, min kv.2 (g kv.1))) s =
      min (alGet raw s) (g s) := by
  induction raw with
  | nil => simp [alGet, mapGet?]
  | cons kv t ih =>
      obtain ⟨k, v⟩ := kv
      by_cases h : k = s
      · subst h; simp [alGet, mapGet?]
      · simpa [alGet, mapGet?, h] using ih

theorem overrideFold_not_mem {s : String}
    (sd : List (String × SkillDefinition)) :
    ∀ acc, s ∉ sd.map Prod.fst →
      mapGet? (sd.foldl overrideStep acc).2 s = mapGet? acc.2 s := by
  induction sd with
  | nil => intro acc _; rfl
  | cons kv t ih =>
      intro acc hs
      rw [List.foldl_cons]
      have hne : kv.1 ≠ s := by
        intro h
        exact hs (by simp [← h])
      have hst : s ∉ t.map Prod.fst := by
        intro h
        exact hs (by simp [h])
      rw [ih (overrideStep acc kv) hst]
      exact mapGet?_mapSet_ne _ _ hne

theorem overrideFold_mem {s : String} {d : SkillDefinition}
    {sd : List (String × SkillDefinition)}
    (hnd : (sd.map Prod.fst).Nodup) (hmem : (s, d) ∈ sd) :
    ∀ acc, mapGet? (sd.foldl overrideStep acc).2 s = some d.maxlevel := by
  induction sd with
  | nil => simp at hmem
  | cons kv t ih =>
      intro acc
      have hnd1 : (kv.1 :: t.map Prod.fst).Nodup := by simpa using hnd
      rcases List.nodup_cons.mp hnd1 with ⟨hk0, hnd'⟩
      rw [List.foldl_cons]
      rcases List.mem_cons.mp hmem with heq | h'
      · have hks : kv.1 = s := by rw [← heq]
        have hds : kv.2 = d := by rw [← heq]
        have hst : s ∉ t.map Prod.fst := by
          rw [← hks]; exact hk0
        rw [overrideFold_not_mem t _ hst]
        show mapGet? (mapSet acc.2 kv.1 kv.2.maxlevel) s = some d.maxlevel
        rw [hks, hds]
        exact mapGet?_mapSet_self _ _ _
      · exact ih hnd' h' (overrideStep acc kv)

/-- Claim C2: for every accepted build `B` and skill `s` occurring in it,
`B.effectiveSkillLevels[s] = min(B.rawSkillLevels[s], maxLevel(s))`, where
`maxLevel` is the index lookup (the `skillsData` overrides take precedence
over the taxonomy) defaulting to 6 for unknown skills; consequently the
effective level never exceeds the raw level. -/
theorem claim_C2 (relics : List Relic) (cfg : OptimizerConstraints)
    (sd : List (String × SkillDefinition)) (ri : Option RelicInfo)
    (B : BuildResult) (s : String)
    (hB : B ∈ relicSolve relics cfg sd ri)
    (hs : s ∈ B.rawSkillLevels.map Prod.fst) :
    alGet B.effectiveSkillLevels s =
      min (alGet B.rawSkillLevels s)
        ((mapGet? (buildIndex ri sd).2 s).getD 6) ∧
    alGet B.effectiveSkillLevels s ≤ alGet B.rawSkillLevels s ∧
    (∀ d : SkillDefinition, (sd.map Prod.fst).Nodup → (s, d) ∈ sd →
      (mapGet? (buildIndex ri sd).2 s).getD 6 = d.maxlevel) ∧
    (mapGet? (buildIndex ri sd).2 s = none →
      (mapGet? (buildIndex ri sd).2 s).getD 6 = 6) := by
  obtain ⟨build, _, _, _, _, hmk⟩ := mem_relicSolve hB
  subst hmk
  have heff : alGet
      (mkBuildResult ⟨cfg, (buildIndex ri sd).1, (buildIndex ri sd).2⟩
        build).effectiveSkillLevels s =
      min (alGet (mkBuildResult ⟨cfg, (buildIndex ri sd).1,
          (buildIndex ri sd).2⟩ build).rawSkillLevels s)
        ((mapGet? (buildIndex ri sd).2 s).getD 6) :=
    alGet_map_min _ (fun k => (mapGet? (buildIndex ri sd).2 k).getD 6) s
  refine ⟨heff, ?_, ?_, ?_⟩
  · rw [heff]; exact Nat.min_le_left _ _
  · intro d hnd hmem
    rw [show buildIndex ri sd = sd.foldl overrideStep (taxonomyIndex ri)
      from rfl, overrideFold_mem hnd hmem]
    rfl
  · intro h
    rw [h]
    rfl

set_option maxHeartbeats 1000000 in
set_option maxRecDepth 10000 in
theorem claim_C2_witness :
    alGet resA.effectiveSkillLevels "s" =
      min (alGet resA.rawSkillLevels "s")
        ((mapGet? (buildIndex none sdA).2 "s").getD 6) :=
  (claim_C2 invA cfgA sdA none resA "s" (by decide) (by decide)).1

/-- Claim C8: whenever some declared category minimum exceeds
54 = 6 × 9, `solve` returns the empty list, for every inventory. -/
theorem claim_C8 (relics : List Relic) (cfg : OptimizerConstraints)
    (sd : List (String × SkillDefinition)) (ri : Option RelicInfo)
    (c : String) (m : Nat) (hm : (c, m) ∈ cfg.targetCategoryLevels)
    (h54 : 54 < m) : relicSolve relics cfg sd ri = [] := by
  simp only [relicSolve, solveWith]
  have hp : pruneHit ⟨cfg, (buildIndex ri sd).1, (buildIndex ri sd).2⟩ []
      = true := by
    unfold pruneHit
    rw [List.any_eq_true]
    refine ⟨(c, m), hm, ?_⟩
    rw [decide_eq_true_eq]
    have h0 : alGet (calculateBuildStats
        ⟨cfg, (buildIndex ri sd).1, (buildIndex ri sd).2⟩ []).2 c = 0 := rfl
    rw [h0]
    simpa [maxPointsPerRelic] using h54
  have hrun : backtrack ⟨cfg, (buildIndex ri sd).1, (buildIndex ri sd).2⟩
      (reduceCandidates cfg (buildIndex ri sd).1 relics) [] ⟨[], []⟩
      = ⟨[], []⟩ := by
    rw [backtrack_unfold]
    rw [if_neg (by simp [maxBuilds]), if_neg (by simp), if_pos hp]
  rw [hrun]
  rfl

theorem claim_C8_witness : relicSolve [] cfgX [] none = [] :=
  claim_C8 [] cfgX [] none "X" 55 (by decide) (by decide)

/-! The ranking comparator is transitive and total. -/

theorem buildLe_trans (a b c : BuildResult) (h1 : buildLe a b = true)
    (h2 : buildLe b c = true) : buildLe a c = true := by
  simp only [buildLe, Bool.or_eq_true, Bool.and_eq_true,
    decide_eq_true_eq] at h1 h2 ⊢
  omega

theorem buildLe_total (a b : BuildResult) :
    buildLe a b = true ∨ buildLe b a = true := by
  simp only [buildLe, Bool.or_eq_true, Bool.and_eq_true,
    decide_eq_true_eq]
  omega

/-- Claim C6: the output of `solve` is sorted descending by total raw
skill-level sum, ties broken descending by total effective skill-level
sum: adjacent outputs satisfy `rawSum(B_i) > rawSum(B_(i+1))`, or equal
raw sums with `effSum(B_i) ≥ effSum(B_(i+1))`. -/
theorem claim_C6 (relics : List Relic) (cfg : OptimizerConstraints)
    (sd : List (String × SkillDefinition)) (ri : Option RelicInfo) :
    List.Chain'
      (fun a b => totalRaw b < totalRaw a ∨
        (totalRaw a = totalRaw b ∧ totalEff b ≤ totalEff a))
      (relicSolve relics cfg sd ri) := by
  simp only [relicSolve, solveWith]
  have hp := pairwise_stableSortBy buildLe_trans buildLe_total
    (backtrack ⟨cfg, (buildIndex ri sd).1, (buildIndex ri sd).2⟩
      (reduceCandidates cfg (buildIndex ri sd).1 relics) [] ⟨[], []⟩
    ).validBuilds
  refine List.Pairwise.chain' (hp.imp ?_)
  intro a b h
  simpa [buildLe, Bool.or_eq_true, Bool.and_eq_true,
    decide_eq_true_eq] using h

/-! Additivity of the per-category sums, and the per-item bound that
justifies the feasibility prune. -/

theorem alGet_statsAddSkill_snd (S : Solver)
    (acc : List (String × Nat) × List (String × Nat)) (sk : RelicSkill)
    (c : String) :
    alGet (statsAddSkill S acc sk).2 c =
      alGet acc.2 c + skillCatContrib S c sk := by
  unfold statsAddSkill skillCatContrib
  cases h : mapGet? S.categoryMap sk.name with
  | none => simp [h]
  | some cat =>
      by_cases hc : cat = ""
      · simp [h, hc]
      · by_cases hcc : cat = c
        · subst hcc
          simp [h, hc, alGet_alBump]
        · simp [h, hc, hcc, alGet_alBump]

theorem alGet_foldl_skills (S : Solver) (skills : List RelicSkill) :
    ∀ (acc : List (String × Nat) × List (String × Nat)) (c : String),
      alGet (skills.foldl (statsAddSkill S) acc).2 c =
        alGet acc.2 c + (skills.map (skillCatContrib S c)).sum := by
  induction skills with
  | nil => intro acc c; simp
  | cons sk t ih =>
      intro acc c
      rw [List.foldl_cons, ih, alGet_statsAddSkill_snd]
      simp only [List.map_cons, List.sum_cons]
      omega

theorem alGet_stats_snd (S : Solver) (build : List Relic) (c : String) :
    alGet (calculateBuildStats S build).2 c =
      (build.map (relicCatContrib S c)).sum := by
  suffices h : ∀ (acc : List (String × Nat) × List (String × Nat)),
      alGet (build.foldl
        (fun acc r => (relicSkills r).foldl (statsAddSkill S) acc) acc).2 c
        = alGet acc.2 c + (build.map (relicCatContrib S c)).sum by
    have h0 := h ([], [])
    simpa [calculateBuildStats, alGet, mapGet?] using h0
  induction build with
  | nil => intro acc; simp
  | cons r t ih =>
      intro acc
      rw [List.foldl_cons, ih, alGet_foldl_skills]
      simp only [List.map_cons, List.sum_cons, relicCatContrib]
      omega

theorem alGet_stats_append (S : Solver) (a b : List Relic) (c : String) :
    alGet (calculateBuildStats S (a ++ b)).2 c =
      alGet (calculateBuildStats S a).2 c +
        alGet (calculateBuildStats S b).2 c := by
  simp [alGet_stats_snd, List.map_append, List.sum_append]

theorem skillCatContrib_le (S : Solver) (c : String) (sk : RelicSkill) :
    skillCatContrib S c sk ≤ sk.level := by
  unfold skillCatContrib
  cases mapGet? S.categoryMap sk.name with
  | none => simp
  | some cat =>
      show (if cat = "" then 0 else if cat = c then sk.level else 0) ≤
        sk.level
      split_ifs <;> simp

theorem relicCatContrib_le_nine (S : Solver) (c : String) {r : Relic}
    (hwf : RelicWf r) : relicCatContrib S c r ≤ 9 := by
  obtain ⟨hlev, haux⟩ := hwf
  have h1 : relicCatContrib S c r ≤
      ((relicSkills r).map fun sk => sk.level).sum :=
    List.sum_le_sum fun sk _ => skillCatContrib_le S c sk
  have hauxsum : (r.aux_skills.map fun sk => sk.level).sum ≤
      r.aux_skills.length * 3 := by
    have h := List.sum_le_card_nsmul
      (r.aux_skills.map fun sk => sk.level) 3 ?_
    · simpa [smul_eq_mul] using h
    · intro x hx
      obtain ⟨sk, hsk, rfl⟩ := List.mem_map.mp hx
      exact hlev sk (List.mem_cons_of_mem _ hsk)
  have hmain : r.main_skill.level ≤ 3 :=
    hlev _ (List.mem_cons_self _ _)
  have hsum : ((relicSkills r).map fun sk => sk.level).sum ≤ 9 := by
    rw [relicSkills, List.map_cons, List.sum_cons]
    have : r.aux_skills.length * 3 ≤ 6 := by omega
    omega
  exact le_trans h1 hsum

theorem pruneHit_true_iff {S : Solver} {cur : List Relic} :
    pruneHit S cur = true ↔
      ∃ ct ∈ S.constraints.targetCategoryLevels,
        alGet (calculateBuildStats S cur).2 ct.1 +
          (6 - cur.length) * 9 < ct.2 := by
  unfold pruneHit
  rw [List.any_eq_true]
  simp [maxPointsPerRelic]

theorem evaluateBuild_catFail {S : Solver} {build : List Relic}
    {st : SolverState} (h : catFail S build = true) :
    evaluateBuild S build st = st := by
  unfold evaluateBuild
  rw [if_pos h]

theorem backtrackNoPrune_stuck {S : Solver} :
    ∀ (rest cur : List Relic) (st : SolverState),
      (∀ r ∈ rest, RelicWf r) → cur.length ≤ 6 →
      (∃ ct ∈ S.constraints.targetCategoryLevels,
        alGet (calculateBuildStats S cur).2 ct.1 +
          (6 - cur.length) * 9 < ct.2) →
      backtrackNoPrune S rest cur st = st := by
  intro rest
  induction rest with
  | nil =>
      intro cur st hwf hlen hex
      rw [backtrackNoPrune_unfold]
      split_ifs with h1 h2
      · rfl
      · apply evaluateBuild_catFail
        obtain ⟨ct, hct, hlt⟩ := hex
        unfold catFail
        rw [List.any_eq_true]
        refine ⟨ct, hct, ?_⟩
        rw [decide_eq_true_eq]
        rw [h2] at hlt
        omega
      · rfl
  | cons r rs ih =>
      intro cur st hwf hlen hex
      rw [backtrackNoPrune_unfold]
      split_ifs with h1 h2
      · rfl
      · apply evaluateBuild_catFail
        obtain ⟨ct, hct, hlt⟩ := hex
        unfold catFail
        rw [List.any_eq_true]
        refine ⟨ct, hct, ?_⟩
        rw [decide_eq_true_eq]
        rw [h2] at hlt
        omega
      · have hlt6 : cur.length < 6 := Nat.lt_of_le_of_ne hlen h2
        have hwf' : ∀ x ∈ rs, RelicWf x :=
          fun x hx => hwf x (List.mem_cons_of_mem r hx)
        have hinner : backtrackNoPrune S rs (cur ++ [r]) st = st := by
          refine ih (cur ++ [r]) st hwf' (by simp; omega) ?_
          obtain ⟨ct, hct, hlt⟩ := hex
          refine ⟨ct, hct, ?_⟩
          rw [alGet_stats_append]
          have hcontrib : alGet (calculateBuildStats S [r]).2 ct.1 ≤ 9 := by
            rw [alGet_stats_snd]
            simpa using
              relicCatContrib_le_nine S ct.1 (hwf r (List.mem_cons_self r rs))
          have hlen1 : (cur ++ [r]).length = cur.length + 1 := by simp
          rw [hlen1]
          omega
        show backtrackNoPrune S rs cur
          (if quotaBlocked S cur r = true then st
           else backtrackNoPrune S rs (cur ++ [r]) st) = st
        by_cases hqb : quotaBlocked S cur r
        · rw [if_pos hqb]
          exact ih cur st hwf' hlen hex
        · rw [if_neg hqb, hinner]
          exact ih cur st hwf' hlen hex

theorem backtrack_eq_noPrune {S : Solver} :
    ∀ (rest cur : List Relic) (st : SolverState),
      (∀ r ∈ rest, RelicWf r) → cur.length ≤ 6 →
      backtrack S rest cur st = backtrackNoPrune S rest cur st := by
  intro rest
  induction rest with
  | nil =>
      intro cur st hwf hlen
      rw [backtrack_unfold, backtrackNoPrune_unfold]
      by_cases h1 : maxBuilds ≤ st.validBuilds.length
      · rw [if_pos h1, if_pos h1]
      · rw [if_neg h1, if_neg h1]
        by_cases h2 : cur.length = 6
        · rw [if_pos h2, if_pos h2]
        · rw [if_neg h2, if_neg h2]
          by_cases h3 : pruneHit S cur
          · rw [if_pos h3]
          · rw [if_neg h3]
  | cons r rs ih =>
      intro cur st hwf hlen
      by_cases h1 : maxBuilds ≤ st.validBuilds.length
      · rw [backtrack_stuck h1, backtrackNoPrune_unfold, if_pos h1]
      · by_cases h2 : cur.length = 6
        · rw [backtrack_unfold, backtrackNoPrune_unfold,
            if_neg h1, if_neg h1, if_pos h2, if_pos h2]
        · have hlt6 : cur.length < 6 := Nat.lt_of_le_of_ne hlen h2
          have hwf' : ∀ x ∈ rs, RelicWf x :=
            fun x hx => hwf x (List.mem_cons_of_mem r hx)
          by_cases h3 : pruneHit S cur
          · rw [backtrack_unfold, if_neg h1, if_neg h2, if_pos h3]
            exact (backtrackNoPrune_stuck (r :: rs) cur st hwf hlen
              (pruneHit_true_iff.mp h3)).symm
          · rw [backtrack_unfold, backtrackNoPrune_unfold,
              if_neg h1, if_neg h1, if_neg h2, if_neg h2, if_neg h3]
            have hinner : backtrack S rs (cur ++ [r]) st =
                backtrackNoPrune S rs (cur ++ [r]) st :=
              ih (cur ++ [r]) st hwf' (by simp; omega)
            show backtrack S rs cur
                (if quotaBlocked S cur r = true then st
                 else backtrack S rs (cur ++ [r]) st) =
              backtrackNoPrune S rs cur
                (if quotaBlocked S cur r = true then st
                 else backtrackNoPrune S rs (cur ++ [r]) st)
            rw [hinner]
            exact ih cur _ hwf' hlen

/-- Claim C7 (amended): under the precondition that every candidate item
is well-formed per the spec's item shape — every modifier level at most
3 AND at most two secondary modifiers, so that no item can contribute
more than 9 = 3 + 2 × 3 to any category — the backtracking search with
the feasibility prune accepts exactly the same builds as the search
without it. -/
theorem claim_C7 (S : Solver) (cands : List Relic)
    (hwf : ∀ r ∈ cands,
      (∀ sk ∈ relicSkills r, sk.level ≤ 3) ∧ r.aux_skills.length ≤ 2) :
    (backtrack S cands [] ⟨[], []⟩).validBuilds =
      (backtrackNoPrune S cands [] ⟨[], []⟩).validBuilds := by
  rw [backtrack_eq_noPrune cands [] ⟨[], []⟩ hwf (by simp)]

/-- Claim C7 counterexample: with every modifier level at most 3 but an
item carrying four secondary modifiers (so contributing 15 to category
`X`), the pruned search returns no build while the unpruned search
accepts one — the claim's precondition (levels ≤ 3 alone) does not make
the prune sound. -/
theorem claim_C7_cex :
    (∀ r ∈ cands7, ∀ sk ∈ relicSkills r, sk.level ≤ 3) ∧
    (backtrack S7 cands7 [] ⟨[], []⟩).validBuilds ≠
      (backtrackNoPrune S7 cands7 [] ⟨[], []⟩).validBuilds := by
  constructor
  · decide
  · decide

theorem claim_C7_witness :
    (backtrack SA [rA] [] ⟨[], []⟩).validBuilds =
      (backtrackNoPrune SA [rA] [] ⟨[], []⟩).validBuilds :=
  claim_C7 SA [rA] (by decide)

/-! Lemmas about the candidate reducer. -/

theorem scoredList_map_fst (cfg : OptimizerConstraints)
    (catMap : List (String × String)) (relics : List Relic) :
    (scoredList cfg catMap relics).map Prod.fst = relics.enum := by
  unfold scoredList
  rw [List.map_map]
  show List.map (fun ir => ir) relics.enum = relics.enum
  simp

theorem nodup_enum (l : List Relic) : l.enum.Nodup :=
  List.Nodup.of_map Prod.fst
    (by rw [List.enum_map_fst]; exact List.nodup_range _)

theorem topFor_types (cfg : OptimizerConstraints)
    (catMap : List (String × String)) (relics : List Relic) (c : String) :
    ∀ x ∈ topFor cfg catMap relics c, x.2.type = c := by
  intro x hx
  unfold topFor at hx
  obtain ⟨s, hs, rfl⟩ := List.mem_map.mp hx
  have hs2 := List.take_subset 15 _ hs
  have hs3 := mem_stableSortBy.mp hs2
  have hf := (List.mem_filter.mp hs3).2
  simpa using hf

theorem topFor_nodup (cfg : OptimizerConstraints)
    (catMap : List (String × String)) (relics : List Relic) (c : String) :
    (topFor cfg catMap relics c).Nodup := by
  unfold topFor
  rw [List.map_take]
  refine List.Nodup.sublist (List.take_sublist _ _) ?_
  have hperm :=
    (stableSortBy_perm (fun a b => decide (b.2 ≤ a.2))
      ((scoredList cfg catMap relics).filter
        fun s => s.1.2.type = c)).map Prod.fst
  rw [hperm.nodup_iff]
  refine List.Nodup.sublist
    ((List.filter_sublist _).map Prod.fst) ?_
  rw [scoredList_map_fst]
  exact nodup_enum relics

theorem length_filter_scored_aux (cfg : OptimizerConstraints)
    (catMap : List (String × String)) (c : String) :
    ∀ (l : List Relic) (n : Nat),
      (((List.enumFrom n l).map
        fun ir => (ir, scoreRelic cfg catMap ir.2)).filter
          fun s => s.1.2.type = c).length =
      (l.filter fun r => r.type = c).length := by
  intro l
  induction l with
  | nil => intro n; rfl
  | cons r t ih =>
      intro n
      rw [List.enumFrom_cons]
      simp only [List.map_cons, List.filter_cons]
      by_cases h : r.type = c
      · simp [h, ih]
      · simp [h, ih]

theorem length_filter_scoredList (cfg : OptimizerConstraints)
    (catMap : List (String × String)) (relics : List Relic) (c : String) :
    ((scoredList cfg catMap relics).filter
      fun s => s.1.2.type = c).length =
    (relics.filter fun r => r.type = c).length := by
  unfold scoredList
  rw [show relics.enum = List.enumFrom 0 relics from rfl]
  exact length_filter_scored_aux cfg catMap c relics 0

theorem topFor_length (cfg : OptimizerConstraints)
    (catMap : List (String × String)) (relics : List Relic) (c : String) :
    (topFor cfg catMap relics c).length =
      min 15 ((relics.filter fun r => r.type = c).length) := by
  unfold topFor
  rw [List.length_map, List.length_take,
    (stableSortBy_perm _ _).length_eq, length_filter_scoredList]

theorem length_filter_map_snd (X : List (Nat × Relic)) (p : Relic → Bool) :
    ((X.map Prod.snd).filter p).length =
      (X.filter fun x => p x.2).length := by
  induction X with
  | nil => rfl
  | cons x t ih =>
      simp only [List.map_cons, List.filter_cons]
      by_cases h : p x.2
      · simp [h, ih]
      · simp [h, ih]

/-- Claim C9 (amended): for every category `c` carrying quota `q`, the
candidate set handed to the search retains at least
`min(q, 15, available items of category c)` items of category `c` — the
top-15-per-category cut caps the original `min(q, available)` guarantee
at 15. -/
theorem claim_C9 (cfg : OptimizerConstraints)
    (catMap : List (String × String)) (relics : List Relic) (c : String)
    (q : Nat) (qs : List (String × Nat))
    (hs : cfg.allowedSlots = some qs) (hq : (c, q) ∈ qs) :
    min q (min 15 ((relics.filter fun r => r.type = c).length)) ≤
      ((reduceCandidates cfg catMap relics).filter
        fun r => r.type = c).length := by
  have hc : c ∈ requiredCats cfg := by
    unfold requiredCats
    rw [hs]
    exact List.mem_map.mpr ⟨(c, q), hq, rfl⟩
  simp only [reduceCandidates]
  rw [length_filter_map_snd]
  set ut := dedupFirst ((requiredCats cfg).foldl
    (fun acc cat => acc ++ topFor cfg catMap relics cat) []) with hut
  have hsub2 : topFor cfg catMap relics c ⊆
      ut.filter fun x => x.2.type = c := by
    intro x hx
    refine List.mem_filter.mpr ⟨?_, ?_⟩
    · rw [hut]
      exact mem_dedupFirst.mpr
        (slice_subset_foldl_append _ (requiredCats cfg) [] c hc hx)
    · simpa using topFor_types cfg catMap relics c x hx
  have hlen1 : (topFor cfg catMap relics c).length ≤
      (ut.filter fun x => x.2.type = c).length :=
    ((topFor_nodup cfg catMap relics c).subperm hsub2).length_le
  rw [topFor_length] at hlen1
  by_cases h50 : ut.length < 50
  · rw [if_pos h50, List.filter_append, List.length_append]
    omega
  · rw [if_neg h50]
    omega

set_option maxHeartbeats 2000000 in
set_option maxRecDepth 100000 in
theorem claim_C9_cex :
    cfg9.allowedSlots = some [("A", 16), ("B", 1), ("C", 1), ("D", 1)] ∧
    ("A", 16) ∈ [("A", 16), ("B", 1), ("C", 1), ("D", 1)] ∧
    (relics9.filter fun r => r.type = "A").length = 16 ∧
    ¬ (min 16 ((relics9.filter fun r => r.type = "A").length) ≤
        ((reduceCandidates cfg9 [] relics9).filter
          fun r => r.type = "A").length) :=
  ⟨rfl, by decide, by decide, by decide⟩

set_option maxHeartbeats 2000000 in
set_option maxRecDepth 100000 in
theorem claim_C9_witness :
    min 16 (min 15 ((relics9.filter fun r => r.type = "A").length)) ≤
      ((reduceCandidates cfg9 [] relics9).filter
        fun r => r.type = "A").length :=
  claim_C9 cfg9 [] relics9 "A" 16
    [("A", 16), ("B", 1), ("C", 1), ("D", 1)] rfl (by decide)

end GrowthOpt
